import Mathlib

/-!
# Verification of the base64 codec (`src/base64.ts`)

Shallow embedding of the TypeScript base64 transform into Lean 4.

Modelling conventions, mirroring JavaScript semantics:

* A JS string is a `List Char`; a `Uint8Array` handed to the encoder is a
  `List (Fin 256)` (typed-array elements are always 8-bit values).
* A `Uint8Array` built by the decoder is a `List Nat` of fixed length,
  initialised to zeros; `List.set` models element assignment, and — exactly
  like a JS typed array — an out-of-bounds `List.set` is a silent no-op.
* `revLookup[x]` on a missing key yields `undefined`, which the bitwise
  operators coerce to `0`; `revAt` below returns `0` in those cases.
* Functions that `throw new Error` are modelled as `Option`-returning
  (`none` = the throw).
* Numbers stay well below `2^31`, so JS bitwise `|`, `<<`, `>>` coincide
  with `Nat.lor/shiftLeft/shiftRight`.
-/

namespace Base64

/-- The 64-character standard alphabet string (`const code = ...`). -/
def code : String :=
  "ABCDEFGHIJKLMNOPQRSTUVWXYZabcdefghijklmnopqrstuvwxyz0123456789+/"

/-- The forward table: the loop fills `lookup[i] = code[i]` for `i < 64`. -/
def lookup : List Char := code.data

/-- Forward-table access `lookup[i]`; the encoder only ever uses `i < 64`
(the default `'A'` is never reached there). -/
def lookupChar (i : Nat) : Char := lookup.getD i 'A'

/-- The reverse table: seeded with `'-' ↦ 62`, `'_' ↦ 63`, then the loop adds
`revLookup[code[i]] = i` for each `i < 64`. The 64 characters of `code` are
pairwise distinct and none of them is `'-'` or `'_'`, so the finished table is
this function; a missing key gives `none` (JS `undefined`). -/
def revLookup (c : Char) : Option Nat :=
  if c = '-' then some 62
  else if c = '_' then some 63
  else code.data.findIdx? (fun x => x = c)

/-- `revLookup[base64[i]]` as consumed by the bitwise operators of the decoder:
an out-of-range string index or a missing table key coerces to `0`. -/
def revAt (s : List Char) (i : Nat) : Nat :=
  ((s.get? i).bind revLookup).getD 0

/-- JS regex `\s` character class (ECMA-262 WhiteSpace ∪ LineTerminator). -/
def isJsSpace (c : Char) : Bool :=
  c.toNat ∈ [9, 10, 11, 12, 13, 32, 0xa0, 0x1680,
    0x2000, 0x2001, 0x2002, 0x2003, 0x2004, 0x2005, 0x2006, 0x2007,
    0x2008, 0x2009, 0x200a, 0x2028, 0x2029, 0x202f, 0x205f, 0x3000, 0xfeff]

/-- Membership in the character class `[\s0-9a-zA-Z+/]` of the first
validation regex (the standard-alphabet test). -/
def stdOk (c : Char) : Bool :=
  isJsSpace c || ('0' ≤ c && c ≤ '9') || ('a' ≤ c && c ≤ 'z') ||
    ('A' ≤ c && c ≤ 'Z') || c = '+' || c = '/'

/-- Membership in the character class `[\s0-9a-zA-Z\-_]` of the second
validation regex (the URL-safe test). -/
def urlOk (c : Char) : Bool :=
  isJsSpace c || ('0' ≤ c && c ≤ '9') || ('a' ≤ c && c ≤ 'z') ||
    ('A' ≤ c && c ≤ 'Z') || c = '-' || c = '_'

/-- `.replace(/={0,2}$/, '')`: remove the trailing run of `'='`, but at most
two of them (the leftmost regex match covers the last one or two equals of the trailing run). -/
def dropTrailingEq2 (l : List Char) : List Char :=
  match l.reverse with
  | '=' :: '=' :: rest => rest.reverse
  | '=' :: rest => rest.reverse
  | _ => l

/-- `isValidBase64String` (restricted to string inputs; a non-string argument
returns `false` before this code runs): strip whitespace, strip up to two
trailing `'='`, then test “no character outside the standard class” OR
“no character outside the URL-safe class”. -/
def isValidBase64String (source : List Char) : Bool :=
  let s := dropTrailingEq2 (source.filter (fun c => !isJsSpace c))
  !(s.any (fun c => !stdOk c)) || !(s.any (fun c => !urlOk c))

/-- `getPaddingLength`: `(4 - length % 4) % 4`. -/
def getPaddingLength (l : List Char) : Nat :=
  (4 - l.length % 4) % 4

/-- `getByteLength`: append `'='.repeat(getPaddingLength)` and compute
`paddedLength * 3 / 4 - paddingLength` (all operations exact here, since the
padded length is a multiple of 4). -/
def getByteLength (l : List Char) : Nat :=
  let paddingLength := getPaddingLength l
  (l ++ List.replicate paddingLength '=').length * 3 / 4 - paddingLength

/-- `base64urlEncode`: strip all trailing `'='` (`/=+$/g`), then replace every
`'+'` by `'-'`, then every `'/'` by `'_'`. -/
def base64urlEncode (l : List Char) : List Char :=
  (((l.reverse.dropWhile (fun c => c = '=')).reverse).map
      (fun c => if c = '+' then '-' else c)).map
    (fun c => if c = '/' then '_' else c)

/-- `base64urlDecode`: append `'='.repeat(getPaddingLength)`, then replace
every `'-'` by `'+'`, then every `'_'` by `'/'`. -/
def base64urlDecode (l : List Char) : List Char :=
  (((l ++ List.replicate (getPaddingLength l) '=').map
      (fun c => if c = '-' then '+' else c)).map
    (fun c => if c = '_' then '/' else c))

/-- The record returned by `getBase64Info`. -/
structure Base64Info where
  validString : List Char
  validLength : Nat
  paddingString : List Char
  paddingLength : Nat
  isUrlSafe : Bool
  isNormal : Bool
  urlSafeString : List Char
  normalString : List Char
deriving Repr, DecidableEq

/-- `getBase64Info`: throws (`none`) unless `isValidBase64String`; otherwise
pads the local copy to a multiple of 4 with `'='`, finds the first `'='`
(`indexOf` = `-1` when absent), and assembles the metadata record.
`index > 0` is modelled by the `some i`/`0 < i` branch. -/
def getBase64Info (base64 : List Char) : Option Base64Info :=
  if isValidBase64String base64 then
    let padded :=
      if base64.length % 4 > 0 then
        base64 ++ List.replicate (getPaddingLength base64) '='
      else base64
    let index := padded.findIdx? (fun c => c = '=')
    let validLength :=
      match index with
      | some i => if 0 < i then i else padded.length
      | none => padded.length
    let paddingString :=
      match index with
      | some i => if 0 < i then padded.drop i else []
      | none => []
    let validString := padded.take validLength
    let urlSafeString := base64urlEncode padded
    let normalString := base64urlDecode padded
    some {
      validString := validString
      validLength := validLength
      paddingString := paddingString
      paddingLength := paddingString.length
      isUrlSafe := padded = urlSafeString
      isNormal := padded = normalString
      urlSafeString := urlSafeString
      normalString := normalString }
  else none

/-- The main loop of `toUint8Array`:
`for (; i < len; i += 4)` with `len = Math.min(validLength / 4)`.
`Math.min` of a single argument is that argument, and the comparison of the
integer `i` with the exact float `validLength / 4` is `4 * i < validLength`.
Each iteration reads four reverse-table values at `i..i+3` of the ORIGINAL
string and writes three bytes (out-of-bounds writes dropped by `List.set`).
Returns the final `i`, `currentByte` and the array. -/
def decodeLoopF (s : List Char) (validLength : Nat) :
    Nat → Nat → Nat → List Nat → Nat × Nat × List Nat
  | 0, i, currentByte, arr => (i, currentByte, arr)
  | fuel + 1, i, currentByte, arr =>
    if 4 * i < validLength then
      let tmp := (revAt s i <<< 18) ||| (revAt s (i + 1) <<< 12) |||
        (revAt s (i + 2) <<< 6) ||| revAt s (i + 3)
      let arr := ((arr.set currentByte ((tmp >>> 16) &&& 0xff)).set
          (currentByte + 1) ((tmp >>> 8) &&& 0xff)).set
        (currentByte + 2) (tmp &&& 0xff)
      decodeLoopF s validLength fuel (i + 4) (currentByte + 3) arr
    else (i, currentByte, arr)

/-- The loop of `toUint8Array`, entered with `i = 0`: a fuel of
`validLength + 1` outlasts every iteration (each one requires
`4 * i < validLength` and raises `i` by `4`, so there are at most
`validLength / 16 + 1` of them), so the fuelled recursion computes exactly
the JS `for` loop; `decodeLoopF_stable` below makes this precise. -/
def decodeLoop (s : List Char) (validLength i currentByte : Nat)
    (arr : List Nat) : Nat × Nat × List Nat :=
  decodeLoopF s validLength (validLength + 1) i currentByte arr

/-- `toUint8Array`: metadata (throwing on invalid input), a zero-filled array
of `getByteLength` bytes, the main loop, then the `paddingLength === 2` and
`paddingLength === 1` tail writes (both reading the original string at the
final value of `i` from the loop). -/
def toUint8Array (base64 : List Char) : Option (List Nat) :=
  (getBase64Info base64).map fun info =>
    let byteLength := getByteLength base64
    let arr : List Nat := List.replicate byteLength 0
    let r := decodeLoop base64 info.validLength 0 0 arr
    let i := r.1
    let currentByte := r.2.1
    let arr := r.2.2
    let st :=
      if info.paddingLength = 2 then
        let tmp := (revAt base64 i <<< 2) ||| (revAt base64 (i + 1) >>> 4)
        (currentByte + 1, arr.set currentByte (tmp &&& 0xff))
      else (currentByte, arr)
    let st :=
      if info.paddingLength = 1 then
        let tmp := (revAt base64 i <<< 10) ||| (revAt base64 (i + 1) <<< 4) |||
          (revAt base64 (i + 2) >>> 2)
        (st.1 + 2, (st.2.set st.1 ((tmp >>> 8) &&& 0xff)).set
          (st.1 + 1) (tmp &&& 0xff))
      else st
    st.2

/-- `fromUint8Array`: the `for` loop consumes full 3-byte groups from the
front (`forLen = len - len % 3`), then the `extraBytes === 1` / `=== 2`
epilogues handle the remainder; structural recursion in groups of three
produces the identical character sequence. -/
def fromUint8Array : List (Fin 256) → List Char
  | b0 :: b1 :: b2 :: rest =>
    let tmp := (b0.val <<< 16) ||| (b1.val <<< 8) ||| b2.val
    lookupChar ((tmp >>> 18) &&& 0x3f) :: lookupChar ((tmp >>> 12) &&& 0x3f) ::
      lookupChar ((tmp >>> 6) &&& 0x3f) :: lookupChar (tmp &&& 0x3f) ::
      fromUint8Array rest
  | [b0, b1] =>
    let tmp := (b0.val <<< 8) + b1.val
    [lookupChar (tmp >>> 10), lookupChar ((tmp >>> 4) &&& 0x3f),
      lookupChar ((tmp <<< 2) &&& 0x3f), '=']
  | [b0] =>
    [lookupChar (b0.val >>> 2), lookupChar ((b0.val <<< 4) &&& 0x3f), '=', '=']
  | [] => []

/-- The URL-safe alphabet: the standard alphabet with the two final
characters replaced by their URL aliases — exactly the substitution that
`base64urlEncode` applies to alphabet characters. -/
def urlSafeAlphabet : List Char :=
  code.data.map (fun c => if c = '+' then '-' else if c = '/' then '_' else c)

end Base64

namespace Base64

/-! ## Helper lemmas -/

theorem mem_code_stdOk {c : Char} (h : c ∈ code.data) : stdOk c = true := by
  have hall : code.data.all (fun c => stdOk c) = true := by decide
  exact List.all_eq_true.mp hall c h

theorem mem_code_not_space {c : Char} (h : c ∈ code.data) :
    isJsSpace c = false := by
  have hall : code.data.all (fun c => !isJsSpace c) = true := by decide
  simpa using List.all_eq_true.mp hall c h

theorem mem_url_urlOk {c : Char} (h : c ∈ urlSafeAlphabet) : urlOk c = true := by
  have hall : urlSafeAlphabet.all (fun c => urlOk c) = true := by decide
  exact List.all_eq_true.mp hall c h

theorem mem_url_not_space {c : Char} (h : c ∈ urlSafeAlphabet) :
    isJsSpace c = false := by
  have hall : urlSafeAlphabet.all (fun c => !isJsSpace c) = true := by decide
  simpa using List.all_eq_true.mp hall c h

theorem eq_not_mem_code : '=' ∉ code.data := by decide

theorem lookupChar_mem (i : Nat) : lookupChar i ∈ code.data := by
  unfold lookupChar lookup
  rw [List.getD_eq_getElem?_getD]
  cases hg : code.data[i]? with
  | some c =>
    obtain ⟨hlt, he⟩ := List.getElem?_eq_some_iff.mp hg
    simpa [hg, he] using (he ▸ List.getElem_mem hlt)
  | none => simp [hg]; decide

/-- Fuel stability of the decode loop: once the fuel dominates the remaining
iteration count, `decodeLoopF` no longer depends on it; with the fuel
`validLength + 1` used by `decodeLoop` this is always the case from `i = 0`. -/
theorem decodeLoopF_stable (s : List Char) (vL : Nat) :
    ∀ f g i cur arr, vL ≤ 4 * i + 4 * f → vL ≤ 4 * i + 4 * g →
      decodeLoopF s vL f i cur arr = decodeLoopF s vL g i cur arr := by
  intro f
  induction f with
  | zero =>
    intro g i cur arr hf hg
    cases g with
    | zero => rfl
    | succ g =>
      simp only [decodeLoopF]
      rw [if_neg (by omega)]
  | succ f ih =>
    intro g i cur arr hf hg
    cases g with
    | zero =>
      simp only [decodeLoopF]
      rw [if_neg (by omega)]
    | succ g =>
      simp only [decodeLoopF]
      by_cases h4 : 4 * i < vL
      · rw [if_pos h4, if_pos h4]
        exact ih g (i + 4) (cur + 3) _ (by omega) (by omega)
      · rw [if_neg h4, if_neg h4]

/-! ## Claim theorems -/

/-- Claim C1 (code_bug evidence): the round-trip fails already on the
single-byte buffer `[0x4D]`. Encoding gives the string `TQ==`, but decoding
that string returns the three-byte buffer `[0x4D, 0, 0]`, not `[0x4D]`:
`getByteLength` derives its padding from the length modulo 4 (which is `0`
for a four-character string) instead of counting the `'='` characters, so the
decoder allocates and returns 3 bytes where the claim requires 1. -/
theorem roundtrip_fails_on_single_byte :
    fromUint8Array [(77 : Fin 256)] = "TQ==".data ∧
    toUint8Array "TQ==".data = some [77, 0, 0] ∧
    List.map Fin.val [(77 : Fin 256)] = [77] ∧
    ([77, 0, 0] : List Nat) ≠ [77] := by decide

/-- Claim C3 (code_bug evidence): `getBase64Info "TQ=="` does return
`paddingLength = 2` and `validLength = 2` as claimed, but
`toUint8Array "TQ=="` returns the three-byte buffer `[0x4D, 0, 0]` rather
than the claimed single byte `0x4D`, because `getByteLength "TQ=="`
computes `4 * 3 / 4 - 0 = 3`. -/
theorem info_ok_but_decode_returns_three_bytes :
    (getBase64Info "TQ==".data).map
        (fun info => (info.paddingLength, info.validLength)) = some (2, 2) ∧
    toUint8Array "TQ==".data = some [77, 0, 0] := by decide

/-- Claim C4 (code_bug evidence): on the accepted input `TQ==` the metadata
gives `validLength = 2` and `paddingLength = 2`, so the claimed byte length
is `(2 + 2) * 3 / 4 - 2 = 1`, yet the buffer returned by `toUint8Array` has
length 3 (`getByteLength` uses `(4 - length % 4) % 4 = 0` as its padding
instead of the `paddingLength` of the metadata). -/
theorem byteLength_formula_fails_on_padded_input :
    isValidBase64String "TQ==".data = true ∧
    (getBase64Info "TQ==".data).map
        (fun info => (info.validLength + info.paddingLength) * 3 / 4 -
          info.paddingLength) = some 1 ∧
    (toUint8Array "TQ==".data).map List.length = some 3 := by decide

/-- Claim C2 counterexample: the two-character string `+-` draws its
characters from the union of the standard and URL-safe alphabets (it has no
whitespace and no trailing `'='`), mixing the standard-only `'+'` with the
URL-safe-only `'-'`, yet `isValidBase64String` rejects it: each of the two
regex tests sees the character of the other family, so the OR of the two
per-string tests is false. -/
theorem mixed_alphabet_rejected :
    ("+-".data.all
      (fun c => decide (c ∈ code.data) || c == '-' || c == '_')) = true ∧
    dropTrailingEq2 ("+-".data.filter (fun c => !isJsSpace c)) = "+-".data ∧
    isValidBase64String "+-".data = false := by decide

/-- Claim C6 counterexample: the one-character string `A` is accepted by the
validator, but `getBase64Info` pads it to `A===` and reports
`paddingLength = 3`, outside the claimed set `{0, 1, 2}`. -/
theorem paddingLength_three_on_single_char :
    isValidBase64String "A".data = true ∧
    (getBase64Info "A".data).map (fun info => info.paddingLength) =
      some 3 := by decide

/-- Claim C7 counterexample: the alias `'-'` is in the reverse table with
value 62, but the forward table maps 62 back to `'+'`, not `'-'`, so
`lookup[revLookup[c]] = c` fails at `c = '-'`. -/
theorem alias_not_roundtripped :
    revLookup '-' = some 62 ∧ lookupChar 62 = '+' ∧ ('+' : Char) ≠ '-' := by
  decide

/-- Claim C7 (amended): for each of the 64 characters of the standard
alphabet, the forward table maps the reverse-table value back to the same
character; the aliases `'-'` and `'_'` map under the reverse table to 62 and
63, whose forward entries are `'+'` and `'/'`. Both tables are fixed
constants of the development, so they never change after initialization. -/
theorem forward_reverse_roundtrip :
    (code.data.all
      (fun c => (revLookup c).elim false (fun i => lookupChar i == c))) = true ∧
    revLookup '-' = some 62 ∧ revLookup '_' = some 63 ∧
    lookupChar 62 = '+' ∧ lookupChar 63 = '/' := by decide

theorem fromUint8Array_length (l : List (Fin 256)) :
    (fromUint8Array l).length = ((l.length + 2) / 3) * 4 := by
  induction l using fromUint8Array.induct with
  | case1 b0 b1 b2 rest ih =>
    simp only [fromUint8Array, List.length_cons, ih]
    omega
  | case2 b0 b1 => simp [fromUint8Array]
  | case3 b0 => simp [fromUint8Array]
  | case4 => simp [fromUint8Array]

/-- Claim C5: the encoded string of an `n`-byte buffer always has length
`ceil(n / 3) * 4` (written `(n + 2) / 3 * 4` with natural division), and in
particular the length is always a multiple of 4. -/
theorem encoded_length_law (l : List (Fin 256)) :
    (fromUint8Array l).length = ((l.length + 2) / 3) * 4 ∧
    (fromUint8Array l).length % 4 = 0 := by
  have h := fromUint8Array_length l
  exact ⟨h, by omega⟩

/-- Claim C8: `getBase64Info` and `toUint8Array` raise the invalid-input
error (modelled by `none`) exactly when `isValidBase64String` is false, and
in particular both succeed on the empty string and on the padding-only
string `==`, which the validator accepts. -/
theorem error_iff_invalid (l : List Char) :
    ((getBase64Info l).isSome = isValidBase64String l) ∧
    ((toUint8Array l).isSome = isValidBase64String l) ∧
    isValidBase64String [] = true ∧
    (getBase64Info (List.replicate 2 '=')).isSome = true ∧
    (toUint8Array (List.replicate 2 '=')).isSome = true := by
  have hg : (getBase64Info l).isSome = isValidBase64String l := by
    unfold getBase64Info
    cases h : isValidBase64String l <;> simp [h]
  refine ⟨hg, ?_, by decide, by decide, by decide⟩
  unfold toUint8Array
  simpa using hg

/-- The output of the encoder is a block of alphabet characters followed by
at most two `'='`. -/
theorem fromUint8Array_shape (l : List (Fin 256)) :
    ∃ body k, k ≤ 2 ∧ fromUint8Array l = body ++ List.replicate k '=' ∧
      ∀ c ∈ body, c ∈ code.data := by
  induction l using fromUint8Array.induct with
  | case1 b0 b1 b2 rest ih =>
    obtain ⟨body, k, hk, heq, hmem⟩ := ih
    simp only [fromUint8Array, heq]
    refine ⟨_ :: _ :: _ :: _ :: body, k, hk, rfl, ?_⟩
    intro c hc
    simp only [List.mem_cons] at hc
    rcases hc with rfl | rfl | rfl | rfl | hc
    · exact lookupChar_mem _
    · exact lookupChar_mem _
    · exact lookupChar_mem _
    · exact lookupChar_mem _
    · exact hmem c hc
  | case2 b0 b1 =>
    simp only [fromUint8Array]
    refine ⟨[_, _, _], 1, by omega, rfl, ?_⟩
    intro c hc
    simp only [List.mem_cons, List.not_mem_nil, or_false] at hc
    rcases hc with rfl | rfl | rfl <;> exact lookupChar_mem _
  | case3 b0 =>
    simp only [fromUint8Array]
    refine ⟨[_, _], 2, by omega, rfl, ?_⟩
    intro c hc
    simp only [List.mem_cons, List.not_mem_nil, or_false] at hc
    rcases hc with rfl | rfl <;> exact lookupChar_mem _
  | case4 => exact ⟨[], 0, by omega, rfl, by simp⟩

/-- Stripping up to two trailing equals from a block of equals-free
characters followed by at most two `'='` gives back the block. -/
theorem dropTrailingEq2_append_replicate (body : List Char) (k : Nat)
    (hk : k ≤ 2) (hb : '=' ∉ body) :
    dropTrailingEq2 (body ++ List.replicate k '=') = body := by
  interval_cases k
  · simp only [List.replicate, List.append_nil]
    unfold dropTrailingEq2
    split
    · rename_i rest hr
      have h2 : '=' ∈ body.reverse := by rw [hr]; exact List.mem_cons_self _ _
      exact absurd (List.mem_reverse.mp h2) hb
    · rename_i rest hr
      have h2 : '=' ∈ body.reverse := by rw [hr]; exact List.mem_cons_self _ _
      exact absurd (List.mem_reverse.mp h2) hb
    · rfl
  · have hrev : (body ++ List.replicate 1 '=').reverse = '=' :: body.reverse := by
      simp
    unfold dropTrailingEq2
    split
    · rename_i rest hr
      rw [hrev] at hr
      have h2 : body.reverse = '=' :: rest := (List.cons_eq_cons.mp hr).2
      have h3 : '=' ∈ body.reverse := by rw [h2]; exact List.mem_cons_self _ _
      exact absurd (List.mem_reverse.mp h3) hb
    · rename_i rest hne hr
      rw [hrev] at hr
      have h2 : rest = body.reverse := ((List.cons_eq_cons.mp hr).2).symm
      rw [h2, List.reverse_reverse]
    · rename_i x hne1 hne2
      exact absurd hrev (fun h => hne2 body.reverse h)
  · have hrev : (body ++ List.replicate 2 '=').reverse =
        '=' :: '=' :: body.reverse := by simp
    unfold dropTrailingEq2
    split
    · rename_i rest hr
      rw [hrev] at hr
      have h2 : rest = body.reverse :=
        ((List.cons_eq_cons.mp (List.cons_eq_cons.mp hr).2).2).symm
      rw [h2, List.reverse_reverse]
    · rename_i rest hne1 hr
      rw [hrev] at hr
      have h2 : rest = '=' :: body.reverse := ((List.cons_eq_cons.mp hr).2).symm
      exact absurd h2 (fun h => hne1 body.reverse h)
    · rename_i x hne1 hne2
      exact absurd hrev (fun h => hne1 body.reverse h)

/-- Claim C10: every string produced by the encoder passes the validator:
it consists of standard-alphabet characters followed by at most two trailing
`'='`, so the standard-alphabet regex test succeeds after stripping. -/
theorem validator_accepts_encoder_output (l : List (Fin 256)) :
    isValidBase64String (fromUint8Array l) = true := by
  obtain ⟨body, k, hk, heq, hmem⟩ := fromUint8Array_shape l
  have hbne : '=' ∉ body := fun h => eq_not_mem_code (hmem _ h)
  have hfilter : (body ++ List.replicate k '=').filter (fun c => !isJsSpace c)
      = body ++ List.replicate k '=' := by
    rw [List.filter_eq_self]
    intro a ha
    rcases List.mem_append.mp ha with h | h
    · simp [mem_code_not_space (hmem a h)]
    · have ha2 : a = '=' := List.eq_of_mem_replicate h
      subst ha2; decide
  have hstd : body.any (fun c => !stdOk c) = false := by
    rw [List.any_eq_false]
    intro c hc
    simp [mem_code_stdOk (hmem c hc)]
  rw [heq]
  simp only [isValidBase64String]
  rw [hfilter, dropTrailingEq2_append_replicate body k hk hbne, hstd]
  simp

/-- A reversed equals-free block is untouched by `dropWhile (· = '=')`. -/
theorem dropWhile_eq_self_of_not_mem (body : List Char) (hb : '=' ∉ body) :
    List.dropWhile (fun c => c = '=') body.reverse = body.reverse := by
  cases hbr : body.reverse with
  | nil => simp
  | cons a t =>
    have ha : a ∈ body := by
      rw [← List.mem_reverse, hbr]; exact List.mem_cons_self _ _
    have hane : ¬(a = '=') := fun h => hb (h ▸ ha)
    simp [List.dropWhile_cons, hane]

/-- The `replace(/=+$/g, "")` step of `base64urlEncode` removes exactly the
trailing run of `'='` from an encoder-shaped string. -/
theorem stripAll_append_replicate (body : List Char) (k : Nat)
    (hb : '=' ∉ body) :
    ((body ++ List.replicate k '=').reverse.dropWhile
      (fun c => c = '=')).reverse = body := by
  rw [List.reverse_append, List.reverse_replicate]
  induction k with
  | zero =>
    simp only [List.replicate, List.nil_append]
    rw [dropWhile_eq_self_of_not_mem body hb, List.reverse_reverse]
  | succ k ih =>
    rw [List.replicate_succ, List.cons_append, List.dropWhile_cons]
    simpa using ih

/-- Claim C9: the URL-safe rendering of any encoder output contains no
`'+'`, `'/'` or `'='`: the trailing equals are all stripped, and the two
substitutions eliminate `'+'` and `'/'` without ever producing one. -/
theorem urlsafe_encoding_no_special_chars (l : List (Fin 256)) :
    (base64urlEncode (fromUint8Array l)).all
      (fun c => !(c == '+' || c == '/' || c == '=')) = true := by
  obtain ⟨body, k, hk, heq, hmem⟩ := fromUint8Array_shape l
  have hbne : '=' ∉ body := fun h => eq_not_mem_code (hmem _ h)
  rw [heq]
  unfold base64urlEncode
  rw [stripAll_append_replicate body k hbne, List.all_eq_true]
  intro c hc
  simp only [List.mem_map] at hc
  obtain ⟨x, ⟨b, hb, rfl⟩, rfl⟩ := hc
  by_cases h1 : b = '+'
  · subst h1; decide
  by_cases h2 : b = '/'
  · subst h2; decide
  have hbe : ¬(b = '=') := fun h => hbne (h ▸ hb)
  simp [h1, h2, hbe]

/-- Claim C2 (amended): the validator accepts every string whose characters,
after stripping whitespace and up to two trailing `'='`, are either all
drawn from the standard alphabet or all drawn from the URL-safe alphabet.
(The original claim — acceptance of the full union, including strings that
mix `'+'`/`'/'` with `'-'`/`'_'` — fails on the concrete input `+-`.) -/
theorem validator_accepts_uniform_alphabet (l : List Char)
    (h : (dropTrailingEq2 (l.filter (fun c => !isJsSpace c))).all
          (fun c => decide (c ∈ code.data)) = true ∨
        (dropTrailingEq2 (l.filter (fun c => !isJsSpace c))).all
          (fun c => decide (c ∈ urlSafeAlphabet)) = true) :
    isValidBase64String l = true := by
  simp only [isValidBase64String]
  rcases h with h | h
  · have hany : (dropTrailingEq2 (l.filter (fun c => !isJsSpace c))).any
        (fun c => !stdOk c) = false := by
      rw [List.any_eq_false]
      intro c hc
      have hmem := of_decide_eq_true (List.all_eq_true.mp h c hc)
      simp [mem_code_stdOk hmem]
    rw [hany]
    simp
  · have hany : (dropTrailingEq2 (l.filter (fun c => !isJsSpace c))).any
        (fun c => !urlOk c) = false := by
      rw [List.any_eq_false]
      intro c hc
      have hmem := of_decide_eq_true (List.all_eq_true.mp h c hc)
      simp [mem_url_urlOk hmem]
    rw [hany]
    simp

/-- Witness for `validator_accepts_uniform_alphabet` at the concrete input
`TQ==`, whose stripped form `TQ` is entirely standard-alphabet. -/
theorem validator_accepts_uniform_alphabet_witness :
    isValidBase64String "TQ==".data = true :=
  validator_accepts_uniform_alphabet "TQ==".data (Or.inl (by decide))

/-- Every string splits as its `dropTrailingEq2` part plus at most two
trailing `'='`. -/
theorem dropTrailingEq2_decomp (l : List Char) :
    ∃ k, k ≤ 2 ∧ l = dropTrailingEq2 l ++ List.replicate k '=' := by
  unfold dropTrailingEq2
  split
  · rename_i rest hr
    refine ⟨2, by omega, ?_⟩
    have h2 := congrArg List.reverse hr
    rw [List.reverse_reverse] at h2
    rw [h2]
    simp [List.replicate]
  · rename_i rest hr
    refine ⟨1, by omega, ?_⟩
    have h2 := congrArg List.reverse hr
    rw [List.reverse_reverse] at h2
    rw [h2]
    simp [List.replicate]
  · exact ⟨0, by omega, by simp⟩

/-- Claim C6 (amended): for every accepted input that contains no whitespace
and whose length is a multiple of 4, the `paddingLength` reported by
`getBase64Info` is 0, 1 or 2. (Dropping either side condition makes the statement false: the accepted
one-character input `A` yields `paddingLength = 3`.) -/
theorem paddingLength_le_two_of_clean (l : List Char) (info : Base64Info)
    (hws : ∀ c ∈ l, isJsSpace c = false)
    (hlen : l.length % 4 = 0)
    (hinfo : getBase64Info l = some info) :
    info.paddingLength = 0 ∨ info.paddingLength = 1 ∨
      info.paddingLength = 2 := by
  have hval : isValidBase64String l = true := by
    by_contra hv
    rw [Bool.not_eq_true] at hv
    unfold getBase64Info at hinfo
    rw [if_neg (by simp [hv])] at hinfo
    exact Option.noConfusion hinfo
  have hfil : l.filter (fun c => !isJsSpace c) = l :=
    List.filter_eq_self.mpr (fun a ha => by simp [hws a ha])
  have hnotin : '=' ∉ dropTrailingEq2 l := by
    have hv2 := hval
    unfold isValidBase64String at hv2
    rw [hfil] at hv2
    rcases Bool.or_eq_true_iff.mp hv2 with h | h
    · intro hmem
      have h3 : ∀ x ∈ dropTrailingEq2 l, stdOk x = true := by simpa using h
      exact absurd (h3 '=' hmem) (by decide)
    · intro hmem
      have h3 : ∀ x ∈ dropTrailingEq2 l, urlOk x = true := by simpa using h
      exact absurd (h3 '=' hmem) (by decide)
  obtain ⟨k, hk, hdec⟩ := dropTrailingEq2_decomp l
  have hidxs : l.findIdx? (fun c => c = '=') =
      if k = 0 then none else some (dropTrailingEq2 l).length := by
    conv_lhs => rw [hdec]
    rw [List.findIdx?_append]
    have h1 : (dropTrailingEq2 l).findIdx? (fun c => c = '=') = none :=
      List.findIdx?_eq_none_iff.mpr (fun x hx => by
        simp only [decide_eq_false_iff_not]
        exact fun he => hnotin (he ▸ hx))
    rw [h1, List.findIdx?_replicate]
    by_cases hk0 : k = 0
    · simp [hk0]
    · simp [hk0, Nat.pos_of_ne_zero hk0]
  unfold getBase64Info at hinfo
  rw [if_pos hval, if_neg (show ¬ (l.length % 4 > 0) by omega)] at hinfo
  simp only [Option.some.injEq] at hinfo
  subst hinfo
  simp only [hidxs]
  by_cases hk0 : k = 0
  · simp [hk0]
  · rw [if_neg hk0]
    by_cases hs : 0 < (dropTrailingEq2 l).length
    · have hdrop : List.drop (dropTrailingEq2 l).length l =
          List.replicate k '=' := by
        nth_rewrite 2 [hdec]
        exact List.drop_left _ _
      simp only [hs, if_true, hdrop, List.length_replicate]
      omega
    · simp [hs]

/-- Witness for `paddingLength_le_two_of_clean` at the concrete input
`TQ==`: no whitespace, length 4, and `paddingLength = 2`. -/
theorem paddingLength_le_two_of_clean_witness :
    ({ validString := "TQ".data, validLength := 2,
       paddingString := "==".data, paddingLength := 2,
       isUrlSafe := false, isNormal := true,
       urlSafeString := "TQ".data,
       normalString := "TQ==".data } : Base64Info).paddingLength = 0 ∨
    ({ validString := "TQ".data, validLength := 2,
       paddingString := "==".data, paddingLength := 2,
       isUrlSafe := false, isNormal := true,
       urlSafeString := "TQ".data,
       normalString := "TQ==".data } : Base64Info).paddingLength = 1 ∨
    ({ validString := "TQ".data, validLength := 2,
       paddingString := "==".data, paddingLength := 2,
       isUrlSafe := false, isNormal := true,
       urlSafeString := "TQ".data,
       normalString := "TQ==".data } : Base64Info).paddingLength = 2 :=
  paddingLength_le_two_of_clean "TQ==".data _ (by decide) (by decide)
    (by decide)

end Base64
